import Mathlib

/-!
Verification development for the Tokyo_Cinepath cinema-scraper backend
(`cinema-scraper/main.go`, `cinema-scraper/models.go`).

The Go source is embedded shallowly:

* Go strings are modelled as Lean `String` / `List Char`; Go's `len` on a
  string (a byte count) is modelled by summing the UTF-8 sizes of the
  characters, and byte-index based slicing (`strings.IndexAny` plus
  `text[:idx]`) is modelled by byte-counting functions over `List Char`.
* `time.Time` values are modelled as `Nat` seconds on a single (UTC)
  timeline; the process-local timezone is taken to be UTC, so that
  `Format("2006-01-02")` of an instant `t` is determined by the day number
  `t / 86400`, and lexicographic comparison of formatted dates coincides
  with comparison of day numbers.  `time.Parse` of a pure date yields
  midnight, i.e. a multiple of 86400.  The zero `time.Time` (year 1,
  January 1) is the value `zeroTime`; `IsZero` is equality with it.
* `float64` rating values are modelled as `Rat`: the program only ever
  compares them with 0 and copies them, never performs arithmetic.
* The database is modelled as in-memory lists; GORM's `First` is a first
  match scan in primary-key order, `Create` appends with the next
  auto-increment id, `Save` / `Update` rewrite the rows whose primary key
  matches.
* External HTTP services are modelled as an explicit environment record;
  a failed or undecodable response is `none`.
-/

/- ===================== Go string primitives ===================== -/

/-- `unicode.IsSpace` as used by Go's `strings.TrimSpace`. -/
def isGoSpace (c : Char) : Bool :=
  decide (c.toNat = 32 ∨ c.toNat = 9 ∨ c.toNat = 10 ∨ c.toNat = 11 ∨
    c.toNat = 12 ∨ c.toNat = 13 ∨ c.toNat = 0x85 ∨ c.toNat = 0xA0 ∨
    c.toNat = 0x1680 ∨ (0x2000 ≤ c.toNat ∧ c.toNat ≤ 0x200A) ∨
    c.toNat = 0x2028 ∨ c.toNat = 0x2029 ∨ c.toNat = 0x202F ∨
    c.toNat = 0x205F ∨ c.toNat = 0x3000)

/-- `strings.TrimSpace` on the character list of a Go string. -/
def goTrimList (l : List Char) : List Char :=
  ((l.dropWhile isGoSpace).reverse.dropWhile isGoSpace).reverse

/-- `strings.TrimSpace` on a Go string. -/
def goTrim (s : String) : String :=
  ⟨goTrimList s.data⟩

/-- Go's `len` on a string: the number of UTF-8 bytes. -/
def utf8Len (l : List Char) : Nat :=
  l.foldl (fun a c => a + c.utf8Size) 0

/-- `strings.IndexAny text set`: the byte index of the first character of
`text` that belongs to `set`, or `none` (Go: `-1`). -/
def goIndexAny : List Char → List Char → Option Nat
  | [], _ => none
  | c :: rest, set =>
    if c ∈ set then some 0
    else (goIndexAny rest set).map (· + c.utf8Size)

/-- `text[:n]` for a byte count `n` that falls on a character boundary. -/
def takeBytes : List Char → Nat → List Char
  | _, 0 => []
  | [], _ => []
  | c :: rest, n => if c.utf8Size ≤ n then c :: takeBytes rest (n - c.utf8Size) else []

/- ===================== Time-slot parsing (main.go:277-294) ===================== -/

/-- The per-`span` body of the time-slot loop in `syncSchedulesFromEiga`
(main.go lines 277-294): trim the cell text, drop everything from the
first fullwidth tilde or ASCII space on, and keep the result only if it
is at least 4 bytes long and contains a colon.  `none` means the span is
skipped (no Schedule row is built from it). -/
def parseTimeSlotL (raw : List Char) : Option (List Char) :=
  let text := goTrimList raw
  if text = [] then none
  else
    let text :=
      match goIndexAny text ['～', ' '] with
      | some idx => takeBytes text idx
      | none => text
    if utf8Len text < 4 ∨ ¬ text.contains ':' then none else some text

/-- String-level wrapper of `parseTimeSlotL`. -/
def parseTimeSlot (raw : String) : Option String :=
  (parseTimeSlotL raw.data).map (fun l => ⟨l⟩)

/- ===================== Cinema-name normalisation (main.go:138, 213) ===================== -/

/-- Index (in characters) 1 past the first `）` of the list, provided no
newline occurs before it: the extent of the non-greedy regexp match
`（.*?）` once an opening `（` has been consumed (`.` does not match a
newline in Go regexps). -/
def closeDepth : List Char → Option Nat
  | [] => none
  | c :: rest =>
    if c = '）' then some 1
    else if c = '\n' then none
    else (closeDepth rest).map (· + 1)

/-- `regexp.MustCompile("（.*?）").ReplaceAllString(raw, "")` — the
cinema-name normalisation of `syncCinemasBetter` / `syncSchedulesFromEiga`
(main.go lines 138 and 213).  Every leftmost, non-greedy fullwidth
parenthesised group is deleted. -/
def stripParensAux : Nat → List Char → List Char
  | 0, l => l
  | fuel + 1, l =>
    match l with
    | [] => []
    | c :: rest =>
      if c = '（' then
        match closeDepth rest with
        | some n => stripParensAux fuel (rest.drop n)
        | none => c :: stripParensAux fuel rest
      else c :: stripParensAux fuel rest

/-- `stripParensAux` with enough fuel: the fuel only bounds the recursion
depth (each step consumes at least one character), it never changes the
result. -/
def stripParens (l : List Char) : List Char :=
  stripParensAux l.length l

/-- String-level wrapper of `stripParens`. -/
def normalizeCinemaName (raw : String) : String :=
  ⟨stripParens raw.data⟩

/- ===================== Calendar (Go time.Parse / day arithmetic) ===================== -/

/-- Gregorian leap year. -/
def isLeap (y : Nat) : Bool :=
  (y % 4 = 0 && y % 100 ≠ 0) || y % 400 = 0

/-- Days in a month of a given year (0 for an invalid month number). -/
def daysInMonth (y m : Nat) : Nat :=
  match m with
  | 1 => 31 | 2 => if isLeap y then 29 else 28 | 3 => 31 | 4 => 30
  | 5 => 31 | 6 => 30 | 7 => 31 | 8 => 31 | 9 => 30 | 10 => 31
  | 11 => 30 | 12 => 31 | _ => 0

/-- Days in year `y` that precede month `m`. -/
def daysBeforeMonth (y m : Nat) : Nat :=
  let leapExtra := if isLeap y then 1 else 0
  match m with
  | 1 => 0 | 2 => 31 | 3 => 59 + leapExtra | 4 => 90 + leapExtra
  | 5 => 120 + leapExtra | 6 => 151 + leapExtra | 7 => 181 + leapExtra
  | 8 => 212 + leapExtra | 9 => 243 + leapExtra | 10 => 273 + leapExtra
  | 11 => 304 + leapExtra | 12 => 334 + leapExtra | _ => 0

/-- Number of leap years strictly before year `y` (counting from year 0,
which is a leap year in the proleptic Gregorian calendar Go uses). -/
def leapsBefore (y : Nat) : Nat :=
  (y + 3) / 4 - (y + 99) / 100 + (y + 399) / 400

/-- Day number of the calendar date `y-m-d`: consecutive valid dates map
to consecutive numbers, so this is a faithful (monotone, injective)
encoding of Go's internal absolute time, in days. -/
def dayNumber (y m d : Nat) : Nat :=
  365 * y + leapsBefore y + daysBeforeMonth y m + (d - 1)

/-- Seconds per day. -/
def secPerDay : Nat := 86400

/-- The zero `time.Time` (January 1 of year 1, midnight), in seconds. -/
def zeroTime : Nat := dayNumber 1 1 1 * secPerDay

/-- Value of a decimal digit character. -/
def digitVal (c : Char) : Option Nat :=
  if '0' ≤ c ∧ c ≤ '9' then some (c.toNat - '0'.toNat) else none

/-- Parse a fixed-width run of decimal digits. -/
def parseDigits (l : List Char) : Option Nat :=
  l.foldl
    (fun acc c =>
      match acc, digitVal c with
      | some a, some d => some (a * 10 + d)
      | _, _ => none)
    (some 0)

/-- Combine parsed year/month/day fields into a midnight instant,
validating ranges the way Go's `time.Parse` does. -/
def mkDate (y m d : Option Nat) : Option Nat :=
  match y, m, d with
  | some y, some m, some d =>
    if 1 ≤ m ∧ m ≤ 12 ∧ 1 ≤ d ∧ d ≤ daysInMonth y m then
      some (dayNumber y m d * secPerDay)
    else none
  | _, _, _ => none

/-- `time.Parse("20060102", s)`: exactly 8 digits, validated ranges;
the result is the midnight instant of that date. -/
def parseYYYYMMDD (s : String) : Option Nat :=
  match s.data with
  | [y1, y2, y3, y4, m1, m2, d1, d2] =>
    mkDate (parseDigits [y1, y2, y3, y4]) (parseDigits [m1, m2]) (parseDigits [d1, d2])
  | _ => none

/-- `time.Parse("2006-01-02", s)`: dash-separated date, validated ranges;
the result is the midnight instant of that date. -/
def parseDateYMD (s : String) : Option Nat :=
  match s.data with
  | [y1, y2, y3, y4, s1, m1, m2, s2, d1, d2] =>
    if s1 = '-' ∧ s2 = '-' then
      mkDate (parseDigits [y1, y2, y3, y4]) (parseDigits [m1, m2]) (parseDigits [d1, d2])
    else none
  | _ => none

/- ===================== Data model (models.go) ===================== -/

/-- The `Movie` table row (models.go lines 11-51).  Ratings are `Rat`
(the program only compares them with 0 and copies them), `releaseDate`
is an instant in seconds with the Go zero `time.Time` at `zeroTime`. -/
structure Movie where
  id : Nat
  tmdbID : Int
  imdbID : String
  titleCN : String
  titleEN : String
  titleJP : String
  director : String
  year : String
  synopsis : String
  poster : String
  backdrop : String
  runtime : Int
  genre : String
  castJSON : String
  tmdbRating : Rat
  imdbRating : Rat
  doubanRating : Rat
  status : String
  releaseDate : Nat
  curatorNote : String
deriving Repr, DecidableEq

/-- The `Schedule` table row (models.go lines 54-62), reduced to its
identity tuple (movie, cinema, play date, start time); rows are only
ever inserted keyed by all four fields, never mutated. -/
structure Sched where
  movieId : Nat
  cinemaId : Nat
  playDate : Nat
  startTime : String
deriving Repr, DecidableEq

/- ===================== Metadata enrichment (main.go:428-640) ===================== -/

/-- Decoded body of a TMDB per-locale movie-detail response
(the anonymous struct at main.go lines 474-497).  `cast` entries are
(name, character, profilePath); `crew` entries are (name, job). -/
structure TMDBDetail where
  imdbId : String
  title : String
  overview : String
  posterPath : String
  backdropPath : String
  releaseDate : String
  runtime : Int
  voteAverage : Rat
  genres : List String
  cast : List (String × String × String)
  crew : List (String × String)
deriving Repr, DecidableEq

/-- External world seen by one `enrichMovieRatings` run: TMDB search
(`searchTmdbID`), TMDB detail per (id, locale) — `none` is a failed or
undecodable request —, OMDb rating by IMDb id (`fetchImdbRating`, 0 on
failure), and the Douban scraper (`fetchDoubanRating`). -/
structure EnrichEnv where
  search : String → Int
  details : Int → String → Option TMDBDetail
  omdb : String → Rat
  douban : String → String → Rat

/-- Observable effects of one `enrichMovieRatings` run: which external
services were queried and whether the record was persisted (`db.Save`). -/
structure EnrichEffects where
  searchCalled : Bool
  detailRequests : Nat
  omdbCalled : Bool
  doubanCalled : Bool
  saved : Bool
deriving Repr, DecidableEq

/-- No external call, no store write. -/
def noEffects : EnrichEffects :=
  { searchCalled := false, detailRequests := 0, omdbCalled := false,
    doubanCalled := false, saved := false }

/-- The compile-time constant of main.go line 40. -/
def ENABLE_DOUBAN_RATING : Bool := false

/-- Locale order of the TMDB detail loop (main.go line 454). -/
def tmdbLangs : List String := ["zh-CN", "ja-JP", "en-US"]

/-- main.go lines 505-507: rating is set only if this response has a
nonzero rating and the field is still zero. -/
def updRating (d : TMDBDetail) (m : Movie) : Movie :=
  if d.voteAverage > 0 ∧ m.tmdbRating = 0 then { m with tmdbRating := d.voteAverage } else m

/-- main.go lines 508-510. -/
def updSynopsis (d : TMDBDetail) (m : Movie) : Movie :=
  if m.synopsis = "" ∧ goTrim d.overview ≠ "" then { m with synopsis := d.overview } else m

/-- main.go lines 511-513. -/
def updPoster (d : TMDBDetail) (m : Movie) : Movie :=
  if d.posterPath ≠ "" ∧ m.poster = "" then
    { m with poster := "https://image.tmdb.org/t/p/w500" ++ d.posterPath } else m

/-- main.go lines 514-516. -/
def updBackdrop (d : TMDBDetail) (m : Movie) : Movie :=
  if d.backdropPath ≠ "" ∧ m.backdrop = "" then
    { m with backdrop := "https://image.tmdb.org/t/p/original" ++ d.backdropPath } else m

/-- main.go lines 517-527: backfill `year` from the first 4 bytes of the
date string, and the exact release date if still unset.  (The byte slice
`[:4]` is modelled by `takeBytes`, identical for ASCII date strings.) -/
def updReleaseDate (d : TMDBDetail) (m : Movie) : Movie :=
  if d.releaseDate ≠ "" then
    let m :=
      if m.year = "" ∧ 4 ≤ utf8Len d.releaseDate.data then
        { m with year := ⟨takeBytes d.releaseDate.data 4⟩ } else m
    if m.releaseDate = zeroTime then
      match parseDateYMD d.releaseDate with
      | some t => { m with releaseDate := t }
      | none => m
    else m
  else m

/-- main.go lines 528-530. -/
def updRuntime (d : TMDBDetail) (m : Movie) : Movie :=
  if d.runtime > 0 ∧ m.runtime = 0 then { m with runtime := d.runtime } else m

/-- main.go lines 531-539: genres with nonblank names, joined with ", ". -/
def updGenre (d : TMDBDetail) (m : Movie) : Movie :=
  if d.genres ≠ [] ∧ m.genre = "" then
    { m with genre := String.intercalate (", ") (d.genres.filter (fun g => goTrim g ≠ "")) }
  else m

/-- main.go lines 540-547: first crew member whose job is "Director". -/
def updDirector (d : TMDBDetail) (m : Movie) : Movie :=
  if m.director = "" then
    match d.crew.find? (fun cr => cr.2 == "Director") with
    | some cr => { m with director := cr.1 }
    | none => m
  else m

/-- Hexadecimal digit character (lower case), for JSON escapes. -/
def hexDigit (n : Nat) : Char :=
  if n < 10 then Char.ofNat ('0'.toNat + n) else Char.ofNat ('a'.toNat + n - 10)

/-- Go `encoding/json` escaping of one character inside a string value
(including the default HTML escaping of <, > and &). -/
def jsonEscapeChar (c : Char) : List Char :=
  if c = '"' then ['\\', '"']
  else if c = '\\' then ['\\', '\\']
  else if c = '\n' then ['\\', 'n']
  else if c = '\r' then ['\\', 'r']
  else if c = '\t' then ['\\', 't']
  else if c.toNat < 0x20 ∨ c = '<' ∨ c = '>' ∨ c = '&' then
    ['\\', 'u', '0', '0', hexDigit (c.toNat / 16), hexDigit (c.toNat % 16)]
  else if c.toNat = 0x2028 ∨ c.toNat = 0x2029 then
    ['\\', 'u', '2', '0', '2', hexDigit (c.toNat % 16)]
  else [c]

/-- Go `encoding/json` rendering of a string value. -/
def jsonStr (s : String) : String :=
  ⟨'"' :: s.data.foldr (fun c acc => jsonEscapeChar c ++ acc) ['"']⟩

/-- JSON object for one cast entry {name, role, img}. -/
def castEntryJson (e : String × String × String) : String :=
  "\x7b\"name\":" ++ jsonStr e.1 ++ ",\"role\":" ++ jsonStr e.2.1 ++
    ",\"img\":" ++ jsonStr e.2.2 ++ "\x7d"

/-- `json.Marshal` of the cast slice built at main.go lines 550-576. -/
def castJsonOf (l : List (String × String × String)) : String :=
  "[" ++ String.intercalate (",") (l.map castEntryJson) ++ "]"

/-- Profile-image URL of a cast member (main.go lines 563-566). -/
def castImg (p : String) : String :=
  if p ≠ "" then "https://image.tmdb.org/t/p/w185" ++ p else ""

/-- main.go lines 549-576: the cast list is written once, only from the
zh-CN or en-US response, truncated to 8 entries. -/
def updCast (lang : String) (d : TMDBDetail) (m : Movie) : Movie :=
  if (lang = "zh-CN" ∨ lang = "en-US") ∧ m.castJSON = "" ∧ d.cast ≠ [] then
    { m with castJSON := castJsonOf ((d.cast.take 8).map (fun c => (c.1, c.2.1, castImg c.2.2))) }
  else m

/-- The locale-independent field contributions of one TMDB response, in
source order (main.go lines 504-576). -/
def coreUpds (lang : String) (d : TMDBDetail) (m : Movie) : Movie :=
  updCast lang d (updDirector d (updGenre d (updRuntime d (updReleaseDate d
    (updBackdrop d (updPoster d (updSynopsis d (updRating d m))))))))

/-- The per-locale title writes of the switch at main.go lines 579-598:
the zh-CN response overwrites the translated title, the ja-JP response
only backfills an empty native title, the en-US response overwrites the
alternate title. -/
def applyTitles (lang : String) (d : TMDBDetail) (m : Movie) : Movie :=
  if lang = "zh-CN" then
    (if d.title ≠ "" then { m with titleCN := d.title } else m)
  else if lang = "ja-JP" then
    (if d.title ≠ "" ∧ m.titleJP = "" then { m with titleJP := d.title } else m)
  else if lang = "en-US" then
    (if d.title ≠ "" then { m with titleEN := d.title } else m)
  else m

/-- The IMDb-id capture of the same switch: the zh-CN and en-US
responses supply it, first nonempty capture wins. -/
def captureImdb (lang : String) (d : TMDBDetail) (i : String) : String :=
  if lang = "zh-CN" ∨ lang = "en-US" then (if i = "" then d.imdbId else i) else i

/-- One successful per-locale TMDB response applied to the record and the
captured IMDb id (main.go lines 504-598). -/
def applyLang (lang : String) (d : TMDBDetail) (mi : Movie × String) : Movie × String :=
  (applyTitles lang d (coreUpds lang d mi.1), captureImdb lang d mi.2)

/-- One iteration of the locale loop: a failed or undecodable response
leaves the record untouched (`continue`). -/
def localeStep (env : EnrichEnv) (tmdbID : Int) (mi : Movie × String) (lang : String) :
    Movie × String :=
  match env.details tmdbID lang with
  | none => mi
  | some d => applyLang lang d mi

/-- main.go lines 446-449 and 454-599: record the TMDB id if still
unset, then run the three-locale detail loop threading the record and
the captured IMDb id. -/
def enrichCore (m : Movie) (env : EnrichEnv) (tmdbID : Int) : Movie × String :=
  let m := if m.tmdbID = 0 then { m with tmdbID := tmdbID } else m
  tmdbLangs.foldl (fun mi lang => localeStep env tmdbID mi lang) (m, "")

/-- main.go lines 601-612: if an IMDb id was captured, store it and
overwrite the IMDb rating with the freshly fetched OMDb value. -/
def applyOmdb (env : EnrichEnv) (mi : Movie × String) : Movie :=
  if mi.2 ≠ "" then { mi.1 with imdbID := mi.2, imdbRating := env.omdb mi.2 } else mi.1

/-- main.go lines 614-619: synthesize `<year>-01-01` as the release date
when none was set and a year string exists (and parses). -/
def applyYearFallback (m : Movie) : Movie :=
  if m.releaseDate = zeroTime ∧ m.year ≠ "" then
    match parseDateYMD (m.year ++ "-01-01") with
    | some t => { m with releaseDate := t }
    | none => m
  else m

/-- main.go lines 621-625: Douban rating, compiled out by the
`ENABLE_DOUBAN_RATING = false` constant. -/
def applyDouban (env : EnrichEnv) (m : Movie) : Movie :=
  if ENABLE_DOUBAN_RATING ∧ m.titleEN ≠ "" ∧ m.year ≠ "" then
    { m with doubanRating := env.douban m.titleEN m.year }
  else m

/-- `enrichMovieRatings` (main.go lines 428-640) as a pure function of
the record and the external world, returning the final record and the
observable effects.  The three early returns perform no store write; the
full path always ends in `db.Save`. -/
def enrichMovieRatings (m : Movie) (env : EnrichEnv) : Movie × EnrichEffects :=
  if m.titleCN ≠ "" ∧ m.titleEN ≠ "" ∧ m.tmdbRating > 0 ∧ m.releaseDate ≠ zeroTime then
    (m, noEffects)
  else
    let cleanTitle := goTrim m.titleJP
    if cleanTitle = "" then (m, noEffects)
    else
      let tmdbID := env.search cleanTitle
      if tmdbID = 0 then (m, { noEffects with searchCalled := true })
      else
        let mi := enrichCore m env tmdbID
        let m2 := applyYearFallback (applyOmdb env mi)
        let m3 := applyDouban env m2
        (m3, { searchCalled := true, detailRequests := tmdbLangs.length,
               omdbCalled := mi.2 ≠ "",
               doubanCalled := ENABLE_DOUBAN_RATING ∧ m2.titleEN ≠ "" ∧ m2.year ≠ "",
               saved := true })

/- ===================== Status derivation ===================== -/

/-- One step of the Go running-minimum loop over instants. -/
def minStep (e d : Nat) : Nat := if d < e then d else e

/-- One step of the Go running-maximum loop over instants. -/
def maxStep (e d : Nat) : Nat := if e < d then d else e

/-- One step of the running minimum on the `Option` accumulator
(`earliestDate == nil || d.Before(*earliestDate)`). -/
def minStepO (acc : Option Nat) (d : Nat) : Option Nat :=
  match acc with
  | none => some d
  | some e => some (minStep e d)

/-- One step of the running maximum on the `Option` accumulator
(`latestDate == nil || d.After(*latestDate)`). -/
def maxStepO (acc : Option Nat) (d : Nat) : Option Nat :=
  match acc with
  | none => some d
  | some e => some (maxStep e d)

/-- Running minimum exactly as the Go loops compute it. -/
def listMinO (l : List Nat) : Option Nat :=
  l.foldl minStepO none

/-- Running maximum exactly as the Go loop computes it. -/
def listMaxO (l : List Nat) : Option Nat :=
  l.foldl maxStepO none

/-- The incremental status computation of `syncSchedulesFromEiga`
(main.go lines 312-351), given the distinct play dates collected in this
pass (midnight instants) and the current clock `now`.  Formatted-date
string comparisons (`dateStr <= todayStr`, `earliestDateStr >=
tomorrowStr`) compare day numbers; `Before`/`Equal` compare instants. -/
def incrementalStatus (playDates : List Nat) (now : Nat) : String :=
  let todayD := now / secPerDay
  let hasPastOrToday := playDates.any (fun d => d / secPerDay ≤ todayD)
  match listMinO playDates with
  | some e =>
    if ¬ hasPastOrToday then
      let tomorrow := now + secPerDay
      let seven := now + 7 * secPerDay
      if tomorrow / secPerDay ≤ e / secPerDay then
        if e < seven ∨ e = seven then "incoming" else "showing"
      else "showing"
    else "showing"
  | none => "showing"

/-- The per-movie core of `updateMovieStatusFromSchedules` (main.go lines
756-843), given the play dates of the movie's persisted Schedule rows and
the current clock `now`.  `Truncate(24h)` floors an instant to its day. -/
def fullBatchNewStatus (playDates : List Nat) (now : Nat) : String :=
  if playDates = [] then "unplanned"
  else
    let todayD := now / secPerDay
    let hasPastOrToday := playDates.any (fun d => d / secPerDay ≤ todayD)
    let earliest := listMinO playDates
    let latest := listMaxO playDates
    let lapsed : Bool :=
      match latest with
      | some l => decide (l / secPerDay < todayD)
      | none => false
    if lapsed then "unplanned"
    else
      match earliest with
      | some e =>
        if ¬ hasPastOrToday then
          let tomorrow := now + secPerDay
          let seven := now + 7 * secPerDay
          let eT := e / secPerDay * secPerDay
          if eT < tomorrow then "incoming"
          else if (eT = tomorrow ∨ tomorrow < eT) ∧ (eT < seven ∨ eT = seven) then "incoming"
          else if seven < eT then "future"
          else "showing"
        else "showing"
      | none => "showing"

/-- Transcribed from the spec's §4.4 / §8 ordered rules (the claim's own
wording), over day numbers: used only as the comparison point for the
refinement theorems, never as part of the source embedding. -/
def deriveStatusSpec (days : List Nat) (today : Nat) : String :=
  match listMaxO days, listMinO days with
  | some mx, some mn =>
    if mx < today then "unplanned"
    else if days.any (· ≤ today) then "showing"
    else if today < mn ∧ mn ≤ today + 7 then "incoming"
    else "future"
  | _, _ => "unplanned"

/-- Transcribed from the spec's incremental two-state rule (the claim's
own wording), over day numbers: comparison point only. -/
def incrementalStatusSpec (days : List Nat) (today : Nat) : String :=
  match listMinO days with
  | some mn =>
    if days.any (· ≤ today) then "showing"
    else if today < mn ∧ mn ≤ today + 7 then "incoming"
    else "showing"
  | none => "showing"

/- ===================== Schedule ingestion (main.go:202-376) ===================== -/

/-- One `td[data-date]` cell of a weekly-schedule table: the raw
`data-date` attribute and the raw texts of its `span` children. -/
structure Cell where
  dateRaw : String
  slots : List String
deriving Repr, DecidableEq

/-- One `section[id^=m]` of a cinema detail page: the raw `h2 a` text
and the schedule cells. -/
structure MovieSection where
  titleRaw : String
  cells : List Cell
deriving Repr, DecidableEq

/-- The store as seen by the ingestion pass: Movie rows in primary-key
order and Schedule rows in insertion order. -/
structure DB where
  movies : List Movie
  schedules : List Sched
deriving Repr, DecidableEq

/-- main.go lines 262-270: trim the `data-date` attribute, require
exactly 8 bytes, parse as `20060102`. -/
def cellDate (c : Cell) : Option Nat :=
  let dr := goTrim c.dateRaw
  if utf8Len dr.data = 8 then parseYYYYMMDD dr else none

/-- Schedule rows generated by the spans of one cell (main.go lines
277-303): one row per parseable start time. -/
def cellSlots (mid cid pd : Nat) (slots : List String) : List Sched :=
  slots.filterMap (fun sp => (parseTimeSlot sp).map (fun t => ⟨mid, cid, pd, t⟩))

/-- All Schedule rows generated by a section's cells, in page order. -/
def sectionKeys (mid cid : Nat) (cells : List Cell) : List Sched :=
  cells.foldr
    (fun c acc =>
      match cellDate c with
      | none => acc
      | some pd => cellSlots mid cid pd c.slots ++ acc)
    []

/-- The distinct play dates collected into `playDatesMap`, in first-seen
order (main.go lines 259, 272-274). -/
def sectionDates (cells : List Cell) : List Nat :=
  cells.foldl
    (fun pds c =>
      match cellDate c with
      | none => pds
      | some pd => if pd ∈ pds then pds else pds ++ [pd])
    []

/-- `db.Where("... = ?", ...).FirstOrCreate` on the Schedule identity
tuple (main.go lines 297-299): insert the row only if no row with the
same four key fields exists. -/
def insertSched (sl : List Sched) (s : Sched) : List Sched :=
  if s ∈ sl then sl else sl ++ [s]

/-- Sequential `FirstOrCreate` over a list of rows. -/
def insertAll (sl : List Sched) (ks : List Sched) : List Sched :=
  ks.foldl insertSched sl

/-- `db.Where(&Movie{TitleJP: t}).First`: first row (primary-key order)
whose native title matches (main.go line 237). -/
def findMovieByTitle (l : List Movie) (t : String) : Option Movie :=
  l.find? (fun m => m.titleJP == t)

/-- `db.Save(m)` for a record with a live primary key: rewrite the rows
whose id matches. -/
def replaceById (l : List Movie) (m : Movie) : List Movie :=
  l.map (fun r => if r.id = m.id then m else r)

/-- `db.Model(&movie).Update("status", s)`: rewrite only the status
column of the rows whose id matches (main.go line 356). -/
def setStatusById (l : List Movie) (i : Nat) (s : String) : List Movie :=
  l.map (fun r => if r.id = i then { r with status := s } else r)

/-- `Movie{TitleJP: titleJP, Status: "showing"}` freshly created with
the next auto-increment id (main.go lines 239-243). -/
def blankMovie (i : Nat) (t : String) : Movie :=
  { id := i, tmdbID := 0, imdbID := "", titleCN := "", titleEN := "", titleJP := t,
    director := "", year := "", synopsis := "", poster := "", backdrop := "",
    runtime := 0, genre := "", castJSON := "", tmdbRating := 0, imdbRating := 0,
    doubanRating := 0, status := "showing", releaseDate := zeroTime, curatorNote := "" }

/-- The per-movie-section body of `syncSchedulesFromEiga` (main.go lines
229-360): find-or-create the Movie by native title, enrich and persist
it, upsert the Schedule rows of every parseable (date, time) pair, then
derive the incremental status from the dates seen in this pass and write
it only when it differs.  The Go loop interleaves date collection with
schedule upserts; the two are independent, so they appear here as
`sectionDates` and `insertAll`/`sectionKeys` over the same cells. -/
def processSection (now : Nat) (env : EnrichEnv) (cid : Nat) (db : DB)
    (sec : MovieSection) : DB :=
  let titleJP := goTrim sec.titleRaw
  if titleJP = "" then db
  else
    let found := findMovieByTitle db.movies titleJP
    let movie0 :=
      match found with
      | some mv => mv
      | none => blankMovie (db.movies.length + 1) titleJP
    let movies0 :=
      match found with
      | some _ => db.movies
      | none => db.movies ++ [movie0]
    let er := enrichMovieRatings movie0 env
    let movie1 := er.1
    let movies1 := if er.2.saved then replaceById movies0 movie1 else movies0
    let scheds1 := insertAll db.schedules (sectionKeys movie1.id cid sec.cells)
    let pds := sectionDates sec.cells
    let movies2 :=
      if pds ≠ [] then
        let ns := incrementalStatus pds now
        if movie1.status ≠ ns then setStatusById movies1 movie1.id ns else movies1
      else movies1
    { movies := movies2, schedules := scheds1 }

/-- `updateMovieStatusFromSchedules` (main.go lines 746-848): recompute
every movie's status from all of its persisted Schedule rows. -/
def updateMovieStatusFromSchedules (db : DB) (now : Nat) : DB :=
  { db with
    movies := db.movies.map (fun m =>
      let ds := (db.schedules.filter (fun s => s.movieId == m.id)).map (fun s => s.playDate)
      let ns := fullBatchNewStatus ds now
      if m.status ≠ ns then { m with status := ns } else m) }

/- ===================== Helper definitions for the theorems ===================== -/

/-- Running minimum with explicit seed (the value inside `listMinO` once
the first element has been absorbed). -/
def runMin (v : Nat) (xs : List Nat) : Nat :=
  xs.foldl minStep v

/-- Running maximum with explicit seed. -/
def runMax (v : Nat) (xs : List Nat) : Nat :=
  xs.foldl maxStep v

/-- Fields of a Movie record that one `enrichMovieRatings` step keeps
intact: primary key, status and Douban rating are never written; the
TMDB id and TMDB rating are written only when still zero; a nonempty
native title is never overwritten; a nonempty IMDb id never becomes
empty (though it may be replaced). -/
def EnrichPres (a b : Movie) : Prop :=
  b.id = a.id ∧ b.status = a.status ∧ b.doubanRating = a.doubanRating ∧
  (a.tmdbID ≠ 0 → b.tmdbID = a.tmdbID) ∧
  (a.imdbID ≠ "" → b.imdbID ≠ "") ∧
  (a.titleJP ≠ "" → b.titleJP = a.titleJP) ∧
  (a.tmdbRating ≠ 0 → b.tmdbRating = a.tmdbRating)

/-- Auto-increment well-formedness of the Movie table: row `k` (0-based)
carries primary key `k + 1`. -/
def MoviesWF (l : List Movie) : Prop :=
  l.map (fun m => m.id) = List.range' 1 l.length

/-- Environment in which every external call fails or returns nothing
(search still finds id 1). -/
def envNone : EnrichEnv :=
  { search := fun _ => 1, details := fun _ _ => none,
    omdb := fun _ => 0, douban := fun _ _ => 0 }

/-- A TMDB detail response that carries only an IMDb id. -/
def dZh : TMDBDetail :=
  { imdbId := "tt0000002", title := "", overview := "", posterPath := "",
    backdropPath := "", releaseDate := "", runtime := 0, voteAverage := 0,
    genres := [], cast := [], crew := [] }

/-- Environment whose zh-CN detail response is `dZh` and whose other
calls fail or return zero. -/
def envZh : EnrichEnv :=
  { search := fun _ => 1,
    details := fun _ lang => if lang = "zh-CN" then some dZh else none,
    omdb := fun _ => 0, douban := fun _ _ => 0 }

/-- Fully populated record: triggers the enrichment short-circuit. -/
def mFull : Movie :=
  { blankMovie 1 ("X") with
    titleCN := "甲", titleEN := "A", tmdbRating := 5,
    releaseDate := zeroTime + secPerDay }

/-- Record with a nonzero TMDB rating only. -/
def mRated : Movie :=
  { blankMovie 1 ("X") with tmdbRating := 5 }

/-- Record with a nonzero IMDb rating only. -/
def mImdbRated : Movie :=
  { blankMovie 1 ("X") with imdbRating := 8 }

/-- Record with external ids already set. -/
def mIds : Movie :=
  { blankMovie 1 ("X") with tmdbID := 7, imdbID := "tt0000001" }

/-- Record with an unparseable year string. -/
def mBadYear : Movie :=
  { blankMovie 1 ("X") with year := "abcd" }

/-- Record with a parseable year string and no release date. -/
def mGoodYear : Movie :=
  { blankMovie 1 ("X") with year := "2012" }

/-- One-movie store for the frame-effect witness. -/
def db10 : DB :=
  { movies := [blankMovie 1 ("M")], schedules := [] }

/-- Section whose only cell has an unparseable `data-date`. -/
def sec10 : MovieSection :=
  { titleRaw := "M", cells := [{ dateRaw := "xx", slots := ["10:00"] }] }

/-- Characters that do NOT end the extracted start time: anything but
the fullwidth tilde and the ASCII space. -/
def notSep (c : Char) : Bool := !(c == '～' || c == ' ')

/- ===================== Theorems ===================== -/

theorem stripParensAux_nil (fuel : Nat) : stripParensAux fuel [] = [] := by
  cases fuel <;> rfl

theorem stripParensAux_irrel (fuel1 : Nat) :
    ∀ (l : List Char) (fuel2 : Nat), l.length ≤ fuel1 → l.length ≤ fuel2 →
      stripParensAux fuel1 l = stripParensAux fuel2 l := by
  induction fuel1 with
  | zero =>
    intro l fuel2 h1 _
    have hl : l = [] := List.length_eq_zero.mp (Nat.le_zero.mp h1)
    subst hl
    rw [stripParensAux_nil, stripParensAux_nil]
  | succ f ih =>
    intro l fuel2 h1 h2
    cases l with
    | nil => rw [stripParensAux_nil, stripParensAux_nil]
    | cons c rest =>
      cases fuel2 with
      | zero => simp at h2
      | succ f2 =>
        have hr1 : rest.length ≤ f := by simp [List.length_cons] at h1; omega
        have hr2 : rest.length ≤ f2 := by simp [List.length_cons] at h2; omega
        show stripParensAux (f + 1) (c :: rest) = stripParensAux (f2 + 1) (c :: rest)
        simp only [stripParensAux]
        by_cases hc : c = '（'
        · rw [if_pos hc, if_pos hc]
          cases hcd : closeDepth rest with
          | some n =>
            have hd1 : (rest.drop n).length ≤ f := by
              simp only [List.length_drop]; omega
            have hd2 : (rest.drop n).length ≤ f2 := by
              simp only [List.length_drop]; omega
            simp only [ih (rest.drop n) f2 hd1 hd2]
          | none =>
            simp only [ih rest f2 hr1 hr2]
        · rw [if_neg hc, if_neg hc]
          simp only [ih rest f2 hr1 hr2]

theorem stripParens_cons (c : Char) (rest : List Char) :
    stripParens (c :: rest) =
      if c = '（' then
        match closeDepth rest with
        | some n => stripParens (rest.drop n)
        | none => c :: stripParens rest
      else c :: stripParens rest := by
  show stripParensAux (rest.length + 1) (c :: rest) = _
  simp only [stripParensAux]
  by_cases hc : c = '（'
  · rw [if_pos hc, if_pos hc]
    cases hcd : closeDepth rest with
    | some n =>
      exact stripParensAux_irrel rest.length (rest.drop n) (rest.drop n).length
        (by simp only [List.length_drop]; omega) (Nat.le_refl _)
    | none => rfl
  · rw [if_neg hc, if_neg hc]
    rfl

theorem stripParens_no_open : ∀ l : List Char, '（' ∉ l → stripParens l = l := by
  intro l
  induction l with
  | nil => intro _; rfl
  | cons c rest ih =>
    intro h
    have hc : c ≠ '（' := fun hc => h (hc ▸ List.mem_cons_self c rest)
    have hrest : '（' ∉ rest := fun hm => h (List.mem_cons_of_mem c hm)
    rw [stripParens_cons, if_neg hc, ih hrest]

theorem stripParens_append (b : List Char) (rest : List Char) (hb : '（' ∉ b) :
    stripParens (b ++ rest) = b ++ stripParens rest := by
  induction b with
  | nil => rfl
  | cons c t ih =>
    have hc : c ≠ '（' := fun hc => hb (hc ▸ List.mem_cons_self c t)
    have ht : '（' ∉ t := fun hm => hb (List.mem_cons_of_mem c hm)
    rw [List.cons_append, stripParens_cons, if_neg hc, ih ht, List.cons_append]

theorem closeDepth_append (ann : List Char) (rest : List Char)
    (h1 : '）' ∉ ann) (h2 : '\n' ∉ ann) :
    closeDepth (ann ++ '）' :: rest) = some (ann.length + 1) := by
  induction ann with
  | nil => simp [closeDepth]
  | cons a t ih =>
    have ha1 : a ≠ '）' := fun h => h1 (h ▸ List.mem_cons_self a t)
    have ha2 : a ≠ '\n' := fun h => h2 (h ▸ List.mem_cons_self a t)
    have ht1 : '）' ∉ t := fun hm => h1 (List.mem_cons_of_mem a hm)
    have ht2 : '\n' ∉ t := fun hm => h2 (List.mem_cons_of_mem a hm)
    rw [List.cons_append]
    simp only [closeDepth, if_neg ha1, if_neg ha2, ih ht1 ht2, Option.map_some]
    simp [List.length_cons]

/-- C7 (amended): the cinema-name normalisation deletes every fullwidth
parenthesised group, not only a trailing one; in particular, a raw name
made of a paren-free base followed by one trailing fullwidth-parenthesised
annotation normalises to the base. -/
theorem C7_strip_trailing_annotation (base ann : List Char)
    (hb : '（' ∉ base) (ha1 : '）' ∉ ann) (ha2 : '\n' ∉ ann) :
    stripParens (base ++ '（' :: (ann ++ ['）'])) = base := by
  rw [stripParens_append base _ hb, stripParens_cons, if_pos rfl]
  have hcd : closeDepth (ann ++ ['）']) = some (ann.length + 1) := by
    simpa using closeDepth_append ann [] ha1 ha2
  rw [hcd]
  have hdrop : (ann ++ ['）']).drop (ann.length + 1) = [] := by
    have hlen : (ann ++ ['）']).length = ann.length + 1 := by simp
    rw [← hlen]
    exact List.drop_length _
  simp [hdrop]
  rfl

/-- C7 witness: the claim's own example, via the amended theorem. -/
theorem C7_strip_trailing_annotation_witness :
    stripParens (("新宿ピカデリー（新宿区）").data) = ("新宿ピカデリー").data := by
  have h := C7_strip_trailing_annotation (("新宿ピカデリー").data) (("新宿区").data)
    (by decide) (by decide) (by decide)
  have e : ("新宿ピカデリー（新宿区）").data =
      ("新宿ピカデリー").data ++ '（' :: ((("新宿区").data) ++ ['）']) := by decide
  rw [e, h]

/-- C7 counterexample: a raw name with a leading (non-trailing) fullwidth
parenthesised group.  The claim as stated says normalisation removes only
a trailing annotation, so this name (which has none) should be unchanged;
the code removes the leading group as well. -/
theorem C7_counterexample :
    stripParens (("（ｘ）新宿").data) = ("新宿").data ∧
    ("（ｘ）新宿").data ≠ ("新宿").data := by
  constructor
  · decide
  · decide

theorem notSep_of_mem (c : Char) (h : c ∈ ['～', ' ']) : notSep c = false := by
  simp only [List.mem_cons, List.not_mem_nil, or_false] at h
  rcases h with h | h <;> subst h <;> rfl

theorem notSep_of_not_mem (c : Char) (h : c ∉ ['～', ' ']) : notSep c = true := by
  simp only [List.mem_cons, List.not_mem_nil, or_false, not_or] at h
  simp [notSep, h.1, h.2]

theorem extract_eq_takeWhile : ∀ t : List Char,
    (match goIndexAny t ['～', ' '] with
     | some i => takeBytes t i
     | none => t) = t.takeWhile notSep := by
  intro t
  induction t with
  | nil => rfl
  | cons c r ih =>
    rw [List.takeWhile_cons]
    by_cases h : c ∈ ['～', ' ']
    · rw [notSep_of_mem c h]
      simp only [goIndexAny, if_pos h]
      rfl
    · rw [notSep_of_not_mem c h]
      simp only [goIndexAny, if_neg h]
      cases hg : goIndexAny r ['～', ' '] with
      | none =>
        rw [hg] at ih
        have ih' : r = List.takeWhile notSep r := ih
        show c :: r = if true = true then c :: List.takeWhile notSep r else []
        rw [if_pos rfl, ← ih']
      | some i =>
        rw [hg] at ih
        have ih' : takeBytes r i = List.takeWhile notSep r := ih
        show takeBytes (c :: r) (i + c.utf8Size) =
          if true = true then c :: List.takeWhile notSep r else []
        rw [if_pos rfl, ← ih']
        have hsz : 0 < c.utf8Size := c.utf8Size_pos
        cases hic : i + c.utf8Size with
        | zero => omega
        | succ k =>
          show (if c.utf8Size ≤ k + 1 then
            c :: takeBytes r (k + 1 - c.utf8Size) else []) = c :: takeBytes r i
          rw [if_pos (by omega)]
          have hk : k + 1 - c.utf8Size = i := by omega
          rw [hk]

/-- C6 (amended): each span text is first Unicode-whitespace-trimmed; the
extracted start time is the trimmed text up to (not including) the first
fullwidth tilde or ASCII space; the entry is kept if and only if that
remainder is at least 4 UTF-8 bytes long and contains an ASCII colon.  In
particular "18:05～20:00" yields "18:05", "11:00" yields "11:00", and the
empty string or a colon-free string is discarded. -/
theorem C6_time_slot_extraction (raw : List Char) :
    parseTimeSlotL raw =
      if 4 ≤ utf8Len ((goTrimList raw).takeWhile notSep) ∧
          ((goTrimList raw).takeWhile notSep).contains ':' then
        some ((goTrimList raw).takeWhile notSep)
      else none := by
  simp only [parseTimeSlotL]
  by_cases h : goTrimList raw = []
  · rw [if_pos h, h]
    show (none : Option (List Char)) =
      if 4 ≤ utf8Len (List.takeWhile notSep []) ∧
          (List.takeWhile notSep []).contains ':' then
        some (List.takeWhile notSep []) else none
    rw [if_neg ?_]
    intro hc
    have h4 := hc.1
    simp only [List.takeWhile, utf8Len, List.foldl] at h4
    omega
  · rw [if_neg h, extract_eq_takeWhile (goTrimList raw)]
    by_cases h1 : 4 ≤ utf8Len ((goTrimList raw).takeWhile notSep) ∧
        ((goTrimList raw).takeWhile notSep).contains ':' = true
    · have hL : ¬ (utf8Len ((goTrimList raw).takeWhile notSep) < 4 ∨
          ¬ ((goTrimList raw).takeWhile notSep).contains ':' = true) := by
        push_neg
        exact ⟨h1.1, h1.2⟩
      rw [if_neg hL, if_pos h1]
    · have hL : utf8Len ((goTrimList raw).takeWhile notSep) < 4 ∨
          ¬ ((goTrimList raw).takeWhile notSep).contains ':' = true := by
        rcases Nat.lt_or_ge (utf8Len ((goTrimList raw).takeWhile notSep)) 4 with h2 | h2
        · exact Or.inl h2
        · exact Or.inr (fun hc => h1 ⟨h2, hc⟩)
      rw [if_pos hL, if_neg h1]

/-- C6 counterexample: the claim measures the remainder in characters and
takes the text before the first tilde or space of the raw cell text.  The
code trims first and measures bytes: "あ:" is kept although it has only 2
characters (the claim says discard), and " 11:00" is kept as "11:00"
although the text before its first space is empty (the claim says
discard). -/
theorem C6_counterexample :
    parseTimeSlotL (("あ:").data) = some (("あ:").data) ∧
    (("あ:").data).length = 2 ∧
    parseTimeSlotL ((" 11:00").data) = some (("11:00").data) := by
  refine ⟨by decide, by decide, by decide⟩

/-- C4: a Movie whose translated title, alternate title, primary rating
and release date are all populated makes `enrichMovieRatings` return
immediately: the record is unchanged, no external service is queried and
nothing is written to the store. -/
theorem C4_enrichment_short_circuit (m : Movie) (env : EnrichEnv)
    (h1 : m.titleCN ≠ "") (h2 : m.titleEN ≠ "") (h3 : m.tmdbRating > 0)
    (h4 : m.releaseDate ≠ zeroTime) :
    enrichMovieRatings m env = (m, noEffects) := by
  unfold enrichMovieRatings
  rw [if_pos ⟨h1, h2, h3, h4⟩]

/-- C4 witness: a concrete fully populated record. -/
theorem C4_enrichment_short_circuit_witness :
    (mFull.titleCN ≠ "" ∧ mFull.titleEN ≠ "" ∧ mFull.tmdbRating > 0 ∧
      mFull.releaseDate ≠ zeroTime) ∧
    enrichMovieRatings mFull envNone = (mFull, noEffects) :=
  ⟨⟨by decide, by decide, by decide, by decide⟩,
   C4_enrichment_short_circuit mFull envNone (by decide) (by decide) (by decide) (by decide)⟩

theorem enrichPres_refl (m : Movie) : EnrichPres m m :=
  ⟨rfl, rfl, rfl, fun _ => rfl, fun h => h, fun _ => rfl, fun _ => rfl⟩

theorem enrichPres_trans {a b c : Movie} (h1 : EnrichPres a b) (h2 : EnrichPres b c) :
    EnrichPres a c := by
  obtain ⟨i1, s1, d1, t1, m1, j1, r1⟩ := h1
  obtain ⟨i2, s2, d2, t2, m2, j2, r2⟩ := h2
  refine ⟨i2.trans i1, s2.trans s1, d2.trans d1, ?_, ?_, ?_, ?_⟩
  · intro h
    have hb := t1 h
    have hbne : b.tmdbID ≠ 0 := fun hc => h (hb.symm.trans hc)
    rw [t2 hbne, hb]
  · intro h
    exact m2 (m1 h)
  · intro h
    have hb := j1 h
    have hbne : b.titleJP ≠ "" := fun hc => h (hb.symm.trans hc)
    rw [j2 hbne, hb]
  · intro h
    have hb := r1 h
    have hbne : b.tmdbRating ≠ 0 := fun hc => h (hb.symm.trans hc)
    rw [r2 hbne, hb]

theorem updRating_pres (d : TMDBDetail) (m : Movie) : EnrichPres m (updRating d m) := by
  unfold updRating
  split_ifs with h
  · exact ⟨rfl, rfl, rfl, fun _ => rfl, fun h => h, fun _ => rfl,
      fun hr => absurd h.2 hr⟩
  · exact enrichPres_refl m

theorem updSynopsis_pres (d : TMDBDetail) (m : Movie) : EnrichPres m (updSynopsis d m) := by
  unfold updSynopsis
  split_ifs with h
  · exact ⟨rfl, rfl, rfl, fun _ => rfl, fun h => h, fun _ => rfl, fun _ => rfl⟩
  · exact enrichPres_refl m

theorem updPoster_pres (d : TMDBDetail) (m : Movie) : EnrichPres m (updPoster d m) := by
  unfold updPoster
  split_ifs with h
  · exact ⟨rfl, rfl, rfl, fun _ => rfl, fun h => h, fun _ => rfl, fun _ => rfl⟩
  · exact enrichPres_refl m

theorem updBackdrop_pres (d : TMDBDetail) (m : Movie) : EnrichPres m (updBackdrop d m) := by
  unfold updBackdrop
  split_ifs with h
  · exact ⟨rfl, rfl, rfl, fun _ => rfl, fun h => h, fun _ => rfl, fun _ => rfl⟩
  · exact enrichPres_refl m

theorem updReleaseDate_pres (d : TMDBDetail) (m : Movie) :
    EnrichPres m (updReleaseDate d m) := by
  simp only [updReleaseDate]
  repeat' split
  all_goals
    exact ⟨rfl, rfl, rfl, fun _ => rfl, fun h => h, fun _ => rfl, fun _ => rfl⟩

theorem updRuntime_pres (d : TMDBDetail) (m : Movie) : EnrichPres m (updRuntime d m) := by
  unfold updRuntime
  split_ifs with h
  · exact ⟨rfl, rfl, rfl, fun _ => rfl, fun h => h, fun _ => rfl, fun _ => rfl⟩
  · exact enrichPres_refl m

theorem updGenre_pres (d : TMDBDetail) (m : Movie) : EnrichPres m (updGenre d m) := by
  unfold updGenre
  split_ifs with h
  · exact ⟨rfl, rfl, rfl, fun _ => rfl, fun h => h, fun _ => rfl, fun _ => rfl⟩
  · exact enrichPres_refl m

theorem updDirector_pres (d : TMDBDetail) (m : Movie) : EnrichPres m (updDirector d m) := by
  unfold updDirector
  repeat' split
  all_goals
    first
    | exact enrichPres_refl m
    | exact ⟨rfl, rfl, rfl, fun _ => rfl, fun h => h, fun _ => rfl, fun _ => rfl⟩

theorem updCast_pres (lang : String) (d : TMDBDetail) (m : Movie) :
    EnrichPres m (updCast lang d m) := by
  unfold updCast
  split_ifs with h
  · exact ⟨rfl, rfl, rfl, fun _ => rfl, fun h => h, fun _ => rfl, fun _ => rfl⟩
  · exact enrichPres_refl m

theorem coreUpds_pres (lang : String) (d : TMDBDetail) (m : Movie) :
    EnrichPres m (coreUpds lang d m) := by
  unfold coreUpds
  exact enrichPres_trans (updRating_pres d m)
    (enrichPres_trans (updSynopsis_pres d _)
    (enrichPres_trans (updPoster_pres d _)
    (enrichPres_trans (updBackdrop_pres d _)
    (enrichPres_trans (updReleaseDate_pres d _)
    (enrichPres_trans (updRuntime_pres d _)
    (enrichPres_trans (updGenre_pres d _)
    (enrichPres_trans (updDirector_pres d _) (updCast_pres lang d _))))))))


theorem applyTitles_pres (lang : String) (d : TMDBDetail) (m : Movie) :
    EnrichPres m (applyTitles lang d m) := by
  unfold applyTitles
  split_ifs with h1 h2 h3 h4 h5 h6
  · exact ⟨rfl, rfl, rfl, fun _ => rfl, fun h => h, fun _ => rfl, fun _ => rfl⟩
  · exact enrichPres_refl m
  · exact ⟨rfl, rfl, rfl, fun _ => rfl, fun h => h, fun hne => (hne h4.2).elim,
      fun _ => rfl⟩
  · exact enrichPres_refl m
  · exact ⟨rfl, rfl, rfl, fun _ => rfl, fun h => h, fun _ => rfl, fun _ => rfl⟩
  · exact enrichPres_refl m
  · exact enrichPres_refl m

theorem applyLang_pres (lang : String) (d : TMDBDetail) (mi : Movie × String) :
    EnrichPres mi.1 (applyLang lang d mi).1 :=
  enrichPres_trans (coreUpds_pres lang d mi.1) (applyTitles_pres lang d _)

theorem localeStep_pres (env : EnrichEnv) (tmdbID : Int) (mi : Movie × String)
    (lang : String) : EnrichPres mi.1 (localeStep env tmdbID mi lang).1 := by
  unfold localeStep
  cases env.details tmdbID lang with
  | none => exact enrichPres_refl _
  | some d => exact applyLang_pres lang d mi

theorem foldl_localeStep_pres (env : EnrichEnv) (tmdbID : Int) :
    ∀ (langs : List String) (mi : Movie × String),
      EnrichPres mi.1 ((langs.foldl (fun mi lang => localeStep env tmdbID mi lang) mi).1) := by
  intro langs
  induction langs with
  | nil => intro mi; exact enrichPres_refl _
  | cons lang rest ih =>
    intro mi
    rw [List.foldl_cons]
    exact enrichPres_trans (localeStep_pres env tmdbID mi lang)
      (ih (localeStep env tmdbID mi lang))

theorem enrichCore_pres (m : Movie) (env : EnrichEnv) (tmdbID : Int) :
    EnrichPres m (enrichCore m env tmdbID).1 := by
  unfold enrichCore
  refine enrichPres_trans ?_ (foldl_localeStep_pres env tmdbID tmdbLangs _)
  split_ifs with h
  · exact ⟨rfl, rfl, rfl, fun hne => (hne h).elim, fun h => h, fun _ => rfl,
      fun _ => rfl⟩
  · exact enrichPres_refl m

theorem applyOmdb_pres (env : EnrichEnv) (mi : Movie × String) :
    EnrichPres mi.1 (applyOmdb env mi) := by
  unfold applyOmdb
  split_ifs with h
  · exact ⟨rfl, rfl, rfl, fun _ => rfl, fun _ => h, fun _ => rfl, fun _ => rfl⟩
  · exact enrichPres_refl _

theorem applyYearFallback_pres (m : Movie) : EnrichPres m (applyYearFallback m) := by
  unfold applyYearFallback
  repeat' split
  all_goals
    first
    | exact enrichPres_refl _
    | exact ⟨rfl, rfl, rfl, fun _ => rfl, fun h => h, fun _ => rfl, fun _ => rfl⟩

theorem applyDouban_eq (env : EnrichEnv) (m : Movie) : applyDouban env m = m := by
  unfold applyDouban
  rw [if_neg]
  intro h
  exact absurd h.1 (by simp [ENABLE_DOUBAN_RATING])

theorem enrich_pres (m : Movie) (env : EnrichEnv) :
    EnrichPres m (enrichMovieRatings m env).1 := by
  simp only [enrichMovieRatings]
  split_ifs with h1 h2 h3
  · exact enrichPres_refl m
  · exact enrichPres_refl m
  · exact enrichPres_refl m
  · show EnrichPres m (applyDouban env (applyYearFallback
      (applyOmdb env (enrichCore m env (env.search (goTrim m.titleJP))))))
    rw [applyDouban_eq]
    exact enrichPres_trans (enrichCore_pres m env _)
      (enrichPres_trans (applyOmdb_pres env _) (applyYearFallback_pres _))

/-- C2 (amended): first-writer-wins holds for the TMDB and Douban rating
fields — once nonzero they are never changed by a later
`enrichMovieRatings` call (the Douban field is never written by it at
all) — but NOT for the IMDb rating, which is overwritten with the freshly
fetched OMDb value whenever an IMDb id is captured. -/
theorem C2_first_writer_wins_ratings (m : Movie) (env : EnrichEnv) :
    (m.tmdbRating ≠ 0 → (enrichMovieRatings m env).1.tmdbRating = m.tmdbRating) ∧
    (enrichMovieRatings m env).1.doubanRating = m.doubanRating :=
  ⟨(enrich_pres m env).2.2.2.2.2.2, (enrich_pres m env).2.2.1⟩

/-- C2 witness: a concrete record with a nonzero TMDB rating. -/
theorem C2_first_writer_wins_ratings_witness :
    (enrichMovieRatings mRated envNone).1.tmdbRating = mRated.tmdbRating ∧
    (enrichMovieRatings mRated envNone).1.doubanRating = mRated.doubanRating :=
  ⟨(C2_first_writer_wins_ratings mRated envNone).1 (by decide),
   (C2_first_writer_wins_ratings mRated envNone).2⟩

/-- C2 counterexample: a record whose IMDb rating is already nonzero (and
which is otherwise incomplete, so enrichment proceeds); one call in an
environment whose zh-CN response carries an IMDb id but whose OMDb
lookup fails resets the IMDb rating to 0 — the claim says a nonzero
rating field is never changed. -/
theorem C2_counterexample :
    mImdbRated.imdbRating ≠ 0 ∧
    (enrichMovieRatings mImdbRated envZh).1.imdbRating = 0 := by
  refine ⟨by decide, by decide⟩

/-- C9 (amended): the TMDB id, once nonzero, is never changed by
`enrichMovieRatings`; the IMDb id is never cleared back to empty, but it
IS overwritten with the newly captured id on every run that captures
one, so it can be replaced by a different value. -/
theorem C9_external_id_stability (m : Movie) (env : EnrichEnv) :
    (m.tmdbID ≠ 0 → (enrichMovieRatings m env).1.tmdbID = m.tmdbID) ∧
    (m.imdbID ≠ "" → (enrichMovieRatings m env).1.imdbID ≠ "") :=
  ⟨(enrich_pres m env).2.2.2.1, (enrich_pres m env).2.2.2.2.1⟩

/-- C9 witness: a concrete record with both external ids set, in an
environment that returns nothing. -/
theorem C9_external_id_stability_witness :
    (enrichMovieRatings mIds envNone).1.tmdbID = mIds.tmdbID ∧
    (enrichMovieRatings mIds envNone).1.imdbID ≠ "" :=
  ⟨(C9_external_id_stability mIds envNone).1 (by decide),
   (C9_external_id_stability mIds envNone).2 (by decide)⟩

/-- C9 counterexample: a record whose IMDb id is "tt0000001"; one call in
an environment whose zh-CN response carries IMDb id "tt0000002" replaces
the stored id — the claim says a nonempty id is never replaced by a
different value. -/
theorem C9_counterexample :
    mIds.imdbID = "tt0000001" ∧
    (enrichMovieRatings mIds envZh).1.imdbID = "tt0000002" := by
  refine ⟨by decide, by decide⟩

/-- C5 (amended): at the end of any `enrichMovieRatings` run that reaches
the persistence step, if the release date is still the zero value and the
final year string parses as a valid date `<year>-01-01` (other than the
zero time itself), the release date is set; a year string that does not
parse (e.g. not a 4-digit year) leaves the release date zero. -/
theorem C5_release_date_fallback (m : Movie) (env : EnrichEnv)
    (h1 : ¬ goTrim m.titleJP = "") (h2 : ¬ env.search (goTrim m.titleJP) = 0)
    (t : Nat)
    (hp : parseDateYMD ((enrichMovieRatings m env).1.year ++ "-01-01") = some t)
    (ht : t ≠ zeroTime) :
    (enrichMovieRatings m env).1.releaseDate ≠ zeroTime := by
  by_cases hsc : m.titleCN ≠ "" ∧ m.titleEN ≠ "" ∧ m.tmdbRating > 0 ∧
      m.releaseDate ≠ zeroTime
  · have he : enrichMovieRatings m env = (m, noEffects) := by
      unfold enrichMovieRatings
      rw [if_pos hsc]
    rw [he]
    exact hsc.2.2.2
  · have he : (enrichMovieRatings m env).1 =
        applyDouban env (applyYearFallback (applyOmdb env
          (enrichCore m env (env.search (goTrim m.titleJP))))) := by
      simp only [enrichMovieRatings]
      rw [if_neg hsc, if_neg h1, if_neg h2]
    rw [he, applyDouban_eq] at hp ⊢
    set mo := applyOmdb env (enrichCore m env (env.search (goTrim m.titleJP))) with hmo
    have hyear : (applyYearFallback mo).year = mo.year := by
      unfold applyYearFallback
      repeat' split
      all_goals rfl
    rw [hyear] at hp
    unfold applyYearFallback
    split_ifs with hc
    · rw [hp]
      exact ht
    · push_neg at hc
      by_cases hz : mo.releaseDate = zeroTime
      · have hy := hc hz
        rw [hy] at hp
        have hnone : parseDateYMD ("" ++ "-01-01") = none := by decide
        rw [hnone] at hp
        exact absurd hp (by simp)
      · exact hz

/-- C5 witness: a record whose year string is "2012" ends up with release
date 2012-01-01 (nonzero). -/
theorem C5_release_date_fallback_witness :
    (enrichMovieRatings mGoodYear envNone).1.releaseDate ≠ zeroTime :=
  C5_release_date_fallback mGoodYear envNone (by decide) (by decide)
    (dayNumber 2012 1 1 * secPerDay) (by decide) (by decide)

/-- C5 counterexample: a record whose year string is "abcd" reaches the
persistence step with a nonempty year and a release date still at the
zero value — the claim says a nonempty year always yields a release
date of January 1 of that year. -/
theorem C5_counterexample :
    (enrichMovieRatings mBadYear envNone).2.saved = true ∧
    (enrichMovieRatings mBadYear envNone).1.year ≠ "" ∧
    (enrichMovieRatings mBadYear envNone).1.releaseDate = zeroTime := by
  refine ⟨by decide, by decide, by decide⟩

theorem listMin_go : ∀ (xs : List Nat) (v : Nat),
    xs.foldl minStepO (some v) = some (runMin v xs) := by
  intro xs
  induction xs with
  | nil => intro v; rfl
  | cons x t ih =>
    intro v
    rw [List.foldl_cons]
    show t.foldl minStepO (some (minStep v x)) = some (runMin v (x :: t))
    have hr : runMin v (x :: t) = runMin (minStep v x) t := by
      unfold runMin
      rw [List.foldl_cons]
    rw [hr]
    exact ih (minStep v x)

theorem listMax_go : ∀ (xs : List Nat) (v : Nat),
    xs.foldl maxStepO (some v) = some (runMax v xs) := by
  intro xs
  induction xs with
  | nil => intro v; rfl
  | cons x t ih =>
    intro v
    rw [List.foldl_cons]
    show t.foldl maxStepO (some (maxStep v x)) = some (runMax v (x :: t))
    have hr : runMax v (x :: t) = runMax (maxStep v x) t := by
      unfold runMax
      rw [List.foldl_cons]
    rw [hr]
    exact ih (maxStep v x)

theorem listMinO_cons (x : Nat) (t : List Nat) :
    listMinO (x :: t) = some (runMin x t) := by
  unfold listMinO
  rw [List.foldl_cons]
  exact listMin_go t x

theorem listMaxO_cons (x : Nat) (t : List Nat) :
    listMaxO (x :: t) = some (runMax x t) := by
  unfold listMaxO
  rw [List.foldl_cons]
  exact listMax_go t x

theorem runMin_cons (v x : Nat) (t : List Nat) :
    runMin v (x :: t) = runMin (minStep v x) t := by
  unfold runMin
  rw [List.foldl_cons]

theorem runMax_cons (v x : Nat) (t : List Nat) :
    runMax v (x :: t) = runMax (maxStep v x) t := by
  unfold runMax
  rw [List.foldl_cons]

theorem runMin_le : ∀ (xs : List Nat) (v : Nat),
    runMin v xs ≤ v ∧ ∀ x ∈ xs, runMin v xs ≤ x := by
  intro xs
  induction xs with
  | nil => exact fun v => ⟨Nat.le_refl v, by intro x hx; cases hx⟩
  | cons x t ih =>
    intro v
    rw [runMin_cons]
    obtain ⟨h1, h2⟩ := ih (minStep v x)
    have hsv : minStep v x ≤ v ∧ minStep v x ≤ x := by
      unfold minStep
      split_ifs with h <;> omega
    refine ⟨Nat.le_trans h1 hsv.1, ?_⟩
    intro y hy
    rcases List.mem_cons.mp hy with hy | hy
    · subst hy
      exact Nat.le_trans h1 hsv.2
    · exact h2 y hy

theorem runMax_ge : ∀ (xs : List Nat) (v : Nat),
    v ≤ runMax v xs ∧ ∀ x ∈ xs, x ≤ runMax v xs := by
  intro xs
  induction xs with
  | nil => exact fun v => ⟨Nat.le_refl v, by intro x hx; cases hx⟩
  | cons x t ih =>
    intro v
    rw [runMax_cons]
    obtain ⟨h1, h2⟩ := ih (maxStep v x)
    have hsv : v ≤ maxStep v x ∧ x ≤ maxStep v x := by
      unfold maxStep
      split_ifs with h <;> omega
    refine ⟨Nat.le_trans hsv.1 h1, ?_⟩
    intro y hy
    rcases List.mem_cons.mp hy with hy | hy
    · subst hy
      exact Nat.le_trans hsv.2 h1
    · exact h2 y hy

theorem runMin_mem : ∀ (xs : List Nat) (v : Nat),
    runMin v xs = v ∨ runMin v xs ∈ xs := by
  intro xs
  induction xs with
  | nil => exact fun v => Or.inl rfl
  | cons x t ih =>
    intro v
    rw [runMin_cons]
    have hs : minStep v x = v ∨ minStep v x = x := by
      unfold minStep
      split_ifs with h
      · exact Or.inr rfl
      · exact Or.inl rfl
    rcases ih (minStep v x) with h | h
    · rcases hs with hs | hs
      · exact Or.inl (h.trans hs)
      · exact Or.inr (List.mem_cons.mpr (Or.inl (h.trans hs)))
    · exact Or.inr (List.mem_cons.mpr (Or.inr h))

theorem runMax_mem : ∀ (xs : List Nat) (v : Nat),
    runMax v xs = v ∨ runMax v xs ∈ xs := by
  intro xs
  induction xs with
  | nil => exact fun v => Or.inl rfl
  | cons x t ih =>
    intro v
    rw [runMax_cons]
    have hs : maxStep v x = v ∨ maxStep v x = x := by
      unfold maxStep
      split_ifs with h
      · exact Or.inr rfl
      · exact Or.inl rfl
    rcases ih (maxStep v x) with h | h
    · rcases hs with hs | hs
      · exact Or.inl (h.trans hs)
      · exact Or.inr (List.mem_cons.mpr (Or.inl (h.trans hs)))
    · exact Or.inr (List.mem_cons.mpr (Or.inr h))

theorem runMin_div : ∀ (xs : List Nat) (v : Nat), v % secPerDay = 0 →
    (∀ x ∈ xs, x % secPerDay = 0) →
    runMin (v / secPerDay) (xs.map (· / secPerDay)) = runMin v xs / secPerDay := by
  intro xs
  induction xs with
  | nil => intro v _ _; rfl
  | cons x t ih =>
    intro v hv hxs
    have hx : x % secPerDay = 0 := hxs x (List.mem_cons_self x t)
    have hstep : minStep (v / secPerDay) (x / secPerDay) = minStep v x / secPerDay := by
      unfold minStep
      simp only [secPerDay] at hv hx ⊢
      split_ifs with h1 h2 h2 <;> omega
    rw [List.map_cons, runMin_cons, runMin_cons, hstep]
    exact ih (minStep v x)
      (by unfold minStep; split_ifs <;> assumption)
      (fun y hy => hxs y (List.mem_cons_of_mem x hy))

theorem runMax_div : ∀ (xs : List Nat) (v : Nat), v % secPerDay = 0 →
    (∀ x ∈ xs, x % secPerDay = 0) →
    runMax (v / secPerDay) (xs.map (· / secPerDay)) = runMax v xs / secPerDay := by
  intro xs
  induction xs with
  | nil => intro v _ _; rfl
  | cons x t ih =>
    intro v hv hxs
    have hx : x % secPerDay = 0 := hxs x (List.mem_cons_self x t)
    have hstep : maxStep (v / secPerDay) (x / secPerDay) = maxStep v x / secPerDay := by
      unfold maxStep
      simp only [secPerDay] at hv hx ⊢
      split_ifs with h1 h2 h2 <;> omega
    rw [List.map_cons, runMax_cons, runMax_cons, hstep]
    exact ih (maxStep v x)
      (by unfold maxStep; split_ifs <;> assumption)
      (fun y hy => hxs y (List.mem_cons_of_mem x hy))


/-- C1: the per-movie core of `updateMovieStatusFromSchedules` computes
exactly the spec's ordered rules over the play dates of the movie's
persisted Schedule rows (all midnights) and today's clock: empty set
⇒ "unplanned"; all dates past ⇒ "unplanned"; some date ≤ today
⇒ "showing"; all future with the earliest within (today, today+7]
⇒ "incoming"; all future with the earliest beyond today+7 ⇒ "future". -/
theorem C1_full_batch_status (dates : List Nat) (now : Nat)
    (hmid : ∀ d ∈ dates, d % secPerDay = 0) :
    fullBatchNewStatus dates now =
      deriveStatusSpec (dates.map (· / secPerDay)) (now / secPerDay) := by
  cases dates with
  | nil => rfl
  | cons x t =>
    have hx : x % secPerDay = 0 := hmid x (List.mem_cons_self x t)
    have hts : ∀ d ∈ t, d % secPerDay = 0 := fun d hd => hmid d (List.mem_cons_of_mem x hd)
    have hmaxd : runMax (x / secPerDay) (t.map (· / secPerDay)) = runMax x t / secPerDay :=
      runMax_div t x hx hts
    have hmind : runMin (x / secPerDay) (t.map (· / secPerDay)) = runMin x t / secPerDay :=
      runMin_div t x hx hts
    have hminm : runMin x t % secPerDay = 0 := by
      rcases runMin_mem t x with h | h
      · rw [h]; exact hx
      · exact hts _ h
    have hany_eq : ((x :: t).map (· / secPerDay)).any (fun a => a ≤ now / secPerDay) =
        (x :: t).any (fun d => d / secPerDay ≤ now / secPerDay) := by
      rw [List.any_map]
      rfl
    rw [List.map_cons] at hany_eq
    have heT : runMin x t / secPerDay * secPerDay = runMin x t :=
      Nat.div_mul_cancel (Nat.dvd_of_mod_eq_zero hminm)
    simp only [fullBatchNewStatus, deriveStatusSpec, List.map_cons,
      listMinO_cons, listMaxO_cons, hmaxd, hmind, hany_eq, heT]
    rw [if_neg (by simp : ¬(x :: t = []))]
    by_cases hlap : runMax x t / secPerDay < now / secPerDay
    · rw [if_pos (by simpa using hlap), if_pos hlap]
    · rw [if_neg (by simpa using hlap), if_neg hlap]
      by_cases hany : ((x :: t).any fun d => decide (d / secPerDay ≤ now / secPerDay)) = true
      · rw [if_neg (fun hn => hn hany), if_pos hany]
      · rw [if_pos hany, if_neg hany]
        have hall : ∀ d ∈ x :: t, ¬(d / secPerDay ≤ now / secPerDay) := by
          intro d hd hle
          exact hany (List.any_eq_true.mpr ⟨d, hd, by simpa using hle⟩)
        have hmem : runMin x t ∈ x :: t := by
          rcases runMin_mem t x with h | h
          · rw [h]
            exact List.mem_cons_self x t
          · exact List.mem_cons_of_mem x h
        have hgt : now / secPerDay < runMin x t / secPerDay :=
          Nat.lt_of_not_le (hall _ hmem)
        simp only [secPerDay] at hminm hgt ⊢
        split_ifs with h1 h2 h3 h4 <;> first | rfl | (exfalso; omega)

/-- C1 witness: a single schedule exactly 7 days out, clock 01:00. -/
theorem C1_full_batch_status_witness :
    fullBatchNewStatus [1007 * secPerDay] (1000 * secPerDay + 3600) =
      deriveStatusSpec (([1007 * secPerDay]).map (· / secPerDay))
        ((1000 * secPerDay + 3600) / secPerDay) :=
  C1_full_batch_status ([1007 * secPerDay]) (1000 * secPerDay + 3600) (by decide)

theorem incrementalStatus_two_state (l : List Nat) (n : Nat) :
    incrementalStatus l n = "showing" ∨ incrementalStatus l n = "incoming" := by
  simp only [incrementalStatus]
  split
  · split_ifs <;> first | (right; rfl) | (left; rfl)
  · exact Or.inl rfl

/-- C3: the incremental status computation of `syncSchedulesFromEiga`,
over the nonempty set of play dates (midnights) discovered in the
current pass: "showing" if some date is ≤ today, "incoming" if all dates
are future and the earliest is within (today, today+7], "showing" if the
earliest is more than 7 days out — and the result is always one of
"showing"/"incoming", never "future" or "unplanned". -/
theorem C3_incremental_status (dates : List Nat) (now : Nat)
    (hne : dates ≠ []) (hmid : ∀ d ∈ dates, d % secPerDay = 0) :
    incrementalStatus dates now =
      incrementalStatusSpec (dates.map (· / secPerDay)) (now / secPerDay) ∧
    (incrementalStatus dates now = "showing" ∨
      incrementalStatus dates now = "incoming") := by
  refine ⟨?_, incrementalStatus_two_state dates now⟩
  cases dates with
  | nil => exact absurd rfl hne
  | cons x t =>
    have hx : x % secPerDay = 0 := hmid x (List.mem_cons_self x t)
    have hts : ∀ d ∈ t, d % secPerDay = 0 := fun d hd => hmid d (List.mem_cons_of_mem x hd)
    have hmind : runMin (x / secPerDay) (t.map (· / secPerDay)) = runMin x t / secPerDay :=
      runMin_div t x hx hts
    have hminm : runMin x t % secPerDay = 0 := by
      rcases runMin_mem t x with h | h
      · rw [h]; exact hx
      · exact hts _ h
    have hany_eq : ((x :: t).map (· / secPerDay)).any (fun a => a ≤ now / secPerDay) =
        (x :: t).any (fun d => d / secPerDay ≤ now / secPerDay) := by
      rw [List.any_map]
      rfl
    rw [List.map_cons] at hany_eq
    simp only [incrementalStatus, incrementalStatusSpec, List.map_cons,
      listMinO_cons, hmind, hany_eq]
    by_cases hany : ((x :: t).any fun d => decide (d / secPerDay ≤ now / secPerDay)) = true
    · rw [if_neg (fun hn => hn hany), if_pos hany]
    · rw [if_pos hany, if_neg hany]
      have hall : ∀ d ∈ x :: t, ¬(d / secPerDay ≤ now / secPerDay) := by
        intro d hd hle
        exact hany (List.any_eq_true.mpr ⟨d, hd, by simpa using hle⟩)
      have hmem : runMin x t ∈ x :: t := by
        rcases runMin_mem t x with h | h
        · rw [h]
          exact List.mem_cons_self x t
        · exact List.mem_cons_of_mem x h
      have hgt : now / secPerDay < runMin x t / secPerDay :=
        Nat.lt_of_not_le (hall _ hmem)
      simp only [secPerDay] at hminm hgt ⊢
      split_ifs with h1 h2 h3 <;> first | rfl | (exfalso; omega)

/-- C3 witness: a single discovered date exactly 7 days out, clock 01:00. -/
theorem C3_incremental_status_witness :
    incrementalStatus [1007 * secPerDay] (1000 * secPerDay + 3600) =
      incrementalStatusSpec (([1007 * secPerDay]).map (· / secPerDay))
        ((1000 * secPerDay + 3600) / secPerDay) ∧
    (incrementalStatus [1007 * secPerDay] (1000 * secPerDay + 3600) = "showing" ∨
      incrementalStatus [1007 * secPerDay] (1000 * secPerDay + 3600) = "incoming") :=
  C3_incremental_status ([1007 * secPerDay]) (1000 * secPerDay + 3600)
    (by decide) (by decide)

theorem insertSched_append (sl : List Sched) (s : Sched) :
    ∃ t0, insertSched sl s = sl ++ t0 := by
  unfold insertSched
  split_ifs with h
  · exact ⟨[], by simp⟩
  · exact ⟨[s], rfl⟩

theorem insertAll_append : ∀ (ks : List Sched) (sl : List Sched),
    ∃ tl, insertAll sl ks = sl ++ tl := by
  intro ks
  induction ks with
  | nil => intro sl; exact ⟨[], by simp [insertAll]⟩
  | cons k t ih =>
    intro sl
    show ∃ tl, insertAll (insertSched sl k) t = sl ++ tl
    obtain ⟨t0, h0⟩ := insertSched_append sl k
    obtain ⟨t1, h1⟩ := ih (insertSched sl k)
    exact ⟨t0 ++ t1, by rw [h1, h0, List.append_assoc]⟩

theorem mem_insertSched_self (sl : List Sched) (s : Sched) : s ∈ insertSched sl s := by
  unfold insertSched
  split_ifs with h
  · exact h
  · exact List.mem_append_right sl (List.mem_singleton.mpr rfl)

theorem mem_insertSched_mono (sl : List Sched) (s a : Sched) (h : a ∈ sl) :
    a ∈ insertSched sl s := by
  unfold insertSched
  split_ifs with hs
  · exact h
  · exact List.mem_append_left _ h

theorem mem_insertAll_mono : ∀ (ks : List Sched) (sl : List Sched) (a : Sched),
    a ∈ sl → a ∈ insertAll sl ks := by
  intro ks
  induction ks with
  | nil => intro sl a h; exact h
  | cons k t ih =>
    intro sl a h
    exact ih (insertSched sl k) a (mem_insertSched_mono sl k a h)

theorem mem_insertAll_of_mem : ∀ (ks : List Sched) (sl : List Sched) (k : Sched),
    k ∈ ks → k ∈ insertAll sl ks := by
  intro ks
  induction ks with
  | nil => intro sl k h; cases h
  | cons k0 t ih =>
    intro sl k h
    rcases List.mem_cons.mp h with h | h
    · subst h
      exact mem_insertAll_mono t (insertSched sl k) k (mem_insertSched_self sl k)
    · exact ih (insertSched sl k0) k h

theorem insertAll_eq_of_all_mem : ∀ (ks : List Sched) (sl : List Sched),
    (∀ k ∈ ks, k ∈ sl) → insertAll sl ks = sl := by
  intro ks
  induction ks with
  | nil => intro sl _; rfl
  | cons k t ih =>
    intro sl h
    show insertAll (insertSched sl k) t = sl
    have hk : insertSched sl k = sl := by
      unfold insertSched
      rw [if_pos (h k (List.mem_cons_self k t))]
    rw [hk]
    exact ih sl (fun y hy => h y (List.mem_cons_of_mem k hy))

theorem insertAll_idem (sl : List Sched) (ks : List Sched) :
    insertAll (insertAll sl ks) ks = insertAll sl ks :=
  insertAll_eq_of_all_mem ks (insertAll sl ks) (fun k hk => mem_insertAll_of_mem ks sl k hk)

theorem enrich_unsaved (m : Movie) (env : EnrichEnv)
    (h : (enrichMovieRatings m env).2.saved = false) :
    (enrichMovieRatings m env).1 = m := by
  simp only [enrichMovieRatings] at h ⊢
  split_ifs at h ⊢ <;> first | rfl | (exfalso; simp at h)

theorem sectionDates_foldl_skip : ∀ (cells : List Cell) (pds : List Nat),
    (∀ c ∈ cells, cellDate c = none) →
    cells.foldl
      (fun pds c =>
        match cellDate c with
        | none => pds
        | some pd => if pd ∈ pds then pds else pds ++ [pd]) pds = pds := by
  intro cells
  induction cells with
  | nil => intro pds _; rfl
  | cons c cs ih =>
    intro pds h
    rw [List.foldl_cons, h c (List.mem_cons_self c cs)]
    exact ih pds (fun y hy => h y (List.mem_cons_of_mem c hy))

theorem sectionDates_nil (cells : List Cell) (h : ∀ c ∈ cells, cellDate c = none) :
    sectionDates cells = [] :=
  sectionDates_foldl_skip cells [] h

theorem wf_nodup {l : List Movie} (hwf : MoviesWF l) :
    (l.map (fun m => m.id)).Nodup := by
  rw [hwf]
  exact List.nodup_range' 1 l.length

theorem wf_id_ne_fresh {l : List Movie} (hwf : MoviesWF l) :
    ∀ r ∈ l, r.id ≠ l.length + 1 := by
  intro r hr
  have hmem : r.id ∈ l.map (fun m => m.id) := List.mem_map_of_mem _ hr
  rw [hwf] at hmem
  have := List.mem_range'.mp hmem
  omega

theorem statuses_replaceById : ∀ (l : List Movie) (m : Movie),
    (∀ r ∈ l, r.id = m.id → r.status = m.status) →
    (replaceById l m).map (fun r => r.status) = l.map (fun r => r.status) := by
  intro l m
  induction l with
  | nil => intro _; rfl
  | cons h tl ih =>
    intro hc
    unfold replaceById
    simp only [List.map_cons]
    have htl : (replaceById tl m).map (fun r => r.status) = tl.map (fun r => r.status) :=
      ih (fun r hr => hc r (List.mem_cons_of_mem h hr))
    unfold replaceById at htl
    rw [htl]
    by_cases hid : h.id = m.id
    · rw [if_pos hid, hc h (List.mem_cons_self h tl) hid]
    · rw [if_neg hid]

theorem replaceById_skip : ∀ (l : List Movie) (m : Movie),
    (∀ r ∈ l, r.id ≠ m.id) → replaceById l m = l := by
  intro l m
  induction l with
  | nil => intro _; rfl
  | cons h tl ih =>
    intro hc
    unfold replaceById
    simp only [List.map_cons]
    have htl := ih (fun r hr => hc r (List.mem_cons_of_mem h hr))
    unfold replaceById at htl
    rw [htl, if_neg (hc h (List.mem_cons_self h tl))]

theorem find_cons_pos (t : String) (h : Movie) (tl : List Movie)
    (hp : (h.titleJP == t) = true) :
    List.find? (fun r => r.titleJP == t) (h :: tl) = some h :=
  List.find?_cons_of_pos _ hp

theorem find_cons_neg (t : String) (h : Movie) (tl : List Movie)
    (hp : ¬ (h.titleJP == t) = true) :
    List.find? (fun r => r.titleJP == t) (h :: tl) =
      List.find? (fun r => r.titleJP == t) tl :=
  List.find?_cons_of_neg _ (by simpa using hp)

theorem find_replaceById (l : List Movie) (t : String) (x m : Movie)
    (hf : l.find? (fun r => r.titleJP == t) = some x)
    (hm : m.titleJP = t) (hid : m.id = x.id) :
    (replaceById l m).find? (fun r => r.titleJP == t) = some m := by
  induction l with
  | nil => simp at hf
  | cons h tl ih =>
    by_cases hp : (h.titleJP == t) = true
    · rw [find_cons_pos t h tl hp] at hf
      have hx : h = x := by injection hf
      subst hx
      unfold replaceById
      simp only [List.map_cons]
      rw [if_pos hid.symm]
      exact find_cons_pos t m _ (by simp [hm])
    · rw [find_cons_neg t h tl hp] at hf
      unfold replaceById
      simp only [List.map_cons]
      by_cases hid2 : h.id = m.id
      · rw [if_pos hid2]
        exact find_cons_pos t m _ (by simp [hm])
      · rw [if_neg hid2, find_cons_neg t h _ hp]
        have hres := ih hf
        unfold replaceById at hres
        exact hres

theorem find_replaceById_append (l : List Movie) (t : String) (mv0 m : Movie)
    (hf : l.find? (fun r => r.titleJP == t) = none)
    (hm : m.titleJP = t) (hid : mv0.id = m.id) :
    (replaceById (l ++ [mv0]) m).find? (fun r => r.titleJP == t) = some m := by
  induction l with
  | nil =>
    unfold replaceById
    simp only [List.nil_append, List.map_cons, List.map_nil]
    rw [if_pos hid]
    exact find_cons_pos t m _ (by simp [hm])
  | cons h tl ih =>
    have hp : ¬ ((h.titleJP == t) = true) := by
      intro hp
      rw [find_cons_pos t h tl hp] at hf
      exact absurd hf (by simp)
    rw [find_cons_neg t h tl hp] at hf
    unfold replaceById
    simp only [List.cons_append, List.map_cons]
    by_cases hid2 : h.id = m.id
    · rw [if_pos hid2]
      exact find_cons_pos t m _ (by simp [hm])
    · rw [if_neg hid2, find_cons_neg t h _ hp]
      have hres := ih hf
      unfold replaceById at hres
      exact hres

theorem find_append_of_none (l : List Movie) (t : String) (mv0 : Movie)
    (hf : l.find? (fun r => r.titleJP == t) = none) (hm : mv0.titleJP = t) :
    (l ++ [mv0]).find? (fun r => r.titleJP == t) = some mv0 := by
  induction l with
  | nil => exact find_cons_pos t mv0 _ (by simp [hm])
  | cons h tl ih =>
    have hp : ¬ ((h.titleJP == t) = true) := by
      intro hp
      rw [find_cons_pos t h tl hp] at hf
      exact absurd hf (by simp)
    rw [find_cons_neg t h tl hp] at hf
    rw [List.cons_append, find_cons_neg t h _ hp]
    exact ih hf

theorem find_setStatusById (l : List Movie) (t : String) (y : Movie) (i : Nat) (s : String)
    (hf : l.find? (fun r => r.titleJP == t) = some y) :
    ∃ z, (setStatusById l i s).find? (fun r => r.titleJP == t) = some z ∧
      z.id = y.id ∧ z.titleJP = y.titleJP := by
  induction l with
  | nil => simp at hf
  | cons h tl ih =>
    by_cases hp : (h.titleJP == t) = true
    · rw [find_cons_pos t h tl hp] at hf
      have hx : h = y := by injection hf
      subst hx
      unfold setStatusById
      simp only [List.map_cons]
      by_cases hid2 : h.id = i
      · rw [if_pos hid2]
        exact ⟨{ h with status := s }, find_cons_pos t _ _ hp, rfl, rfl⟩
      · rw [if_neg hid2]
        exact ⟨h, find_cons_pos t _ _ hp, rfl, rfl⟩
    · rw [find_cons_neg t h tl hp] at hf
      unfold setStatusById
      simp only [List.map_cons]
      obtain ⟨z, hz1, hz2, hz3⟩ := ih hf
      unfold setStatusById at hz1
      by_cases hid2 : h.id = i
      · rw [if_pos hid2]
        refine ⟨z, ?_, hz2, hz3⟩
        rw [find_cons_neg t { h with status := s } _ hp]
        exact hz1
      · rw [if_neg hid2]
        refine ⟨z, ?_, hz2, hz3⟩
        rw [find_cons_neg t h _ hp]
        exact hz1

/-- C10: during incremental schedule ingestion, a movie section none of
whose cells carries a parseable play date skips the status-derivation
block entirely: every pre-existing Movie row keeps its stored status
(the row may still be enriched and saved, and a newly created movie is
appended, but no stored status changes). -/
theorem C10_empty_dates_frame (now : Nat) (env : EnrichEnv) (cid : Nat) (db : DB) (sec : MovieSection)
    (hwf : MoviesWF db.movies)
    (hbad : ∀ c ∈ sec.cells, cellDate c = none) :
    ∃ tl, (processSection now env cid db sec).movies.map (fun m => m.status) =
      db.movies.map (fun m => m.status) ++ tl := by
  by_cases ht : goTrim sec.titleRaw = ""
  · refine ⟨[], ?_⟩
    simp only [processSection, if_pos ht, List.append_nil]
  · have hsd : sectionDates sec.cells = [] := sectionDates_nil sec.cells hbad
    simp only [processSection, if_neg ht, hsd]
    rw [if_neg (by simp)]
    cases hfind : findMovieByTitle db.movies (goTrim sec.titleRaw) with
    | some x =>
      by_cases hsv : (enrichMovieRatings x env).2.saved = true
      · refine ⟨[], ?_⟩
        rw [if_pos hsv, List.append_nil]
        apply statuses_replaceById
        intro r hr hrid
        have hids := (enrich_pres x env).1
        have hst := (enrich_pres x env).2.1
        have hxmem : x ∈ db.movies := List.mem_of_find?_eq_some hfind
        have hrx : r = x :=
          List.inj_on_of_nodup_map (wf_nodup hwf) hr hxmem (by rw [hrid, hids])
        rw [hrx]
        exact hst.symm
      · refine ⟨[], ?_⟩
        rw [if_neg hsv, List.append_nil]
    | none =>
      by_cases hsv :
          (enrichMovieRatings (blankMovie (db.movies.length + 1) (goTrim sec.titleRaw)) env).2.saved = true
      · rw [if_pos hsv]
        set mv0 := blankMovie (db.movies.length + 1) (goTrim sec.titleRaw) with hmv0
        set m1 := (enrichMovieRatings mv0 env).1 with hm1
        have hid1 : m1.id = db.movies.length + 1 := (enrich_pres mv0 env).1
        refine ⟨[m1.status], ?_⟩
        have hsplit : replaceById (db.movies ++ [mv0]) m1 =
            replaceById db.movies m1 ++ replaceById [mv0] m1 := by
          unfold replaceById
          rw [List.map_append]
        rw [hsplit, replaceById_skip db.movies m1
          (fun r hr => by rw [hid1]; exact wf_id_ne_fresh hwf r hr)]
        have hone : replaceById [mv0] m1 = [m1] := by
          unfold replaceById
          simp only [List.map_cons, List.map_nil]
          have hmid : mv0.id = m1.id := by
            rw [hid1, hmv0]
            rfl
          rw [if_pos hmid]
        rw [hone, List.map_append]
        rfl
      · rw [if_neg hsv]
        refine ⟨["showing"], ?_⟩
        rw [List.map_append]
        rfl

/-- C10 witness: a one-movie store and a section whose only cell has the
unparseable date attribute "xx". -/
theorem C10_empty_dates_frame_witness :
    ∃ tl, (processSection (1000 * secPerDay) envNone 1 db10 sec10).movies.map
        (fun m => m.status) =
      db10.movies.map (fun m => m.status) ++ tl :=
  C10_empty_dates_frame (1000 * secPerDay) envNone 1 db10 sec10 (by rfl)
    (by
      intro c hc
      have hcc : c = { dateRaw := "xx", slots := ["10:00"] } := by
        simpa [sec10] using hc
      rw [hcc]
      rfl)

theorem length_replaceById (l : List Movie) (m : Movie) :
    (replaceById l m).length = l.length := by
  unfold replaceById
  exact List.length_map l _

theorem length_setStatusById (l : List Movie) (i : Nat) (s : String) :
    (setStatusById l i s).length = l.length := by
  unfold setStatusById
  exact List.length_map l _

theorem processSection_run (now : Nat) (env : EnrichEnv) (cid : Nat) (db : DB)
    (sec : MovieSection) (ht : ¬ goTrim sec.titleRaw = "") :
    ∃ J z,
      (processSection now env cid db sec).schedules
        = insertAll db.schedules (sectionKeys J cid sec.cells) ∧
      findMovieByTitle (processSection now env cid db sec).movies (goTrim sec.titleRaw)
        = some z ∧
      z.id = J ∧
      (∀ x, findMovieByTitle db.movies (goTrim sec.titleRaw) = some x → J = x.id) ∧
      (∀ x, findMovieByTitle db.movies (goTrim sec.titleRaw) = some x →
        (processSection now env cid db sec).movies.length = db.movies.length) := by
  simp only [processSection, if_neg ht]
  cases hfind : findMovieByTitle db.movies (goTrim sec.titleRaw) with
  | some x =>
    have hxt : x.titleJP = goTrim sec.titleRaw := by
      have hp := List.find?_some hfind
      simpa using hp
    have hxtne : x.titleJP ≠ "" := by
      rw [hxt]
      exact ht
    have hm1id : (enrichMovieRatings x env).1.id = x.id := (enrich_pres x env).1
    have hm1t : (enrichMovieRatings x env).1.titleJP = goTrim sec.titleRaw := by
      rw [(enrich_pres x env).2.2.2.2.2.1 hxtne, hxt]
    have hf1 : findMovieByTitle
        (if (enrichMovieRatings x env).2.saved = true
          then replaceById db.movies (enrichMovieRatings x env).1
          else db.movies) (goTrim sec.titleRaw)
        = some (enrichMovieRatings x env).1 := by
      by_cases hsv : (enrichMovieRatings x env).2.saved = true
      · rw [if_pos hsv]
        exact find_replaceById db.movies _ x _ hfind hm1t (by rw [hm1id])
      · rw [if_neg hsv]
        rw [enrich_unsaved x env (by simpa using hsv)]
        exact hfind
    refine ⟨(enrichMovieRatings x env).1.id, ?_⟩
    by_cases hpds : sectionDates sec.cells ≠ []
    · rw [if_pos hpds]
      by_cases hst : (enrichMovieRatings x env).1.status
          ≠ incrementalStatus (sectionDates sec.cells) now
      · rw [if_pos hst]
        obtain ⟨z, hz1, hz2, _⟩ := find_setStatusById _ (goTrim sec.titleRaw) _
          (enrichMovieRatings x env).1.id (incrementalStatus (sectionDates sec.cells) now) hf1
        refine ⟨z, rfl, hz1, by rw [hz2], ?_, ?_⟩
        · intro y hy
          injection hy with hy
          rw [← hy, hm1id]
        · intro y hy
          rw [length_setStatusById]
          by_cases hsv : (enrichMovieRatings x env).2.saved = true
          · rw [if_pos hsv, length_replaceById]
          · rw [if_neg hsv]
      · rw [if_neg hst]
        refine ⟨(enrichMovieRatings x env).1, rfl, hf1, rfl, ?_, ?_⟩
        · intro y hy
          injection hy with hy
          rw [← hy, hm1id]
        · intro y hy
          by_cases hsv : (enrichMovieRatings x env).2.saved = true
          · rw [if_pos hsv, length_replaceById]
          · rw [if_neg hsv]
    · rw [if_neg hpds]
      refine ⟨(enrichMovieRatings x env).1, rfl, hf1, rfl, ?_, ?_⟩
      · intro y hy
        injection hy with hy
        rw [← hy, hm1id]
      · intro y hy
        by_cases hsv : (enrichMovieRatings x env).2.saved = true
        · rw [if_pos hsv, length_replaceById]
        · rw [if_neg hsv]
  | none =>
    set mv0 := blankMovie (db.movies.length + 1) (goTrim sec.titleRaw) with hmv0
    have hmv0t : mv0.titleJP = goTrim sec.titleRaw := rfl
    have hm1id : (enrichMovieRatings mv0 env).1.id = mv0.id := (enrich_pres mv0 env).1
    have hm1t : (enrichMovieRatings mv0 env).1.titleJP = goTrim sec.titleRaw := by
      rw [(enrich_pres mv0 env).2.2.2.2.2.1 (by rw [hmv0t]; exact ht), hmv0t]
    have hf1 : findMovieByTitle
        (if (enrichMovieRatings mv0 env).2.saved = true
          then replaceById (db.movies ++ [mv0]) (enrichMovieRatings mv0 env).1
          else db.movies ++ [mv0]) (goTrim sec.titleRaw)
        = some (enrichMovieRatings mv0 env).1 := by
      by_cases hsv : (enrichMovieRatings mv0 env).2.saved = true
      · rw [if_pos hsv]
        exact find_replaceById_append db.movies _ mv0 _ hfind hm1t (by rw [hm1id])
      · rw [if_neg hsv]
        rw [enrich_unsaved mv0 env (by simpa using hsv)]
        exact find_append_of_none db.movies _ mv0 hfind hmv0t
    refine ⟨(enrichMovieRatings mv0 env).1.id, ?_⟩
    by_cases hpds : sectionDates sec.cells ≠ []
    · rw [if_pos hpds]
      by_cases hst : (enrichMovieRatings mv0 env).1.status
          ≠ incrementalStatus (sectionDates sec.cells) now
      · rw [if_pos hst]
        obtain ⟨z, hz1, hz2, _⟩ := find_setStatusById _ (goTrim sec.titleRaw) _
          (enrichMovieRatings mv0 env).1.id (incrementalStatus (sectionDates sec.cells) now) hf1
        exact ⟨z, rfl, hz1, by rw [hz2], fun y hy => by simp at hy,
          fun y hy => by simp at hy⟩
      · rw [if_neg hst]
        exact ⟨(enrichMovieRatings mv0 env).1, rfl, hf1, rfl,
          fun y hy => by simp at hy, fun y hy => by simp at hy⟩
    · rw [if_neg hpds]
      exact ⟨(enrichMovieRatings mv0 env).1, rfl, hf1, rfl,
        fun y hy => by simp at hy, fun y hy => by simp at hy⟩

/-- C8: re-running schedule ingestion of the same movie section over the
same external environment creates no additional Movie rows and no
additional Schedule rows, and Schedule rows are only ever appended —
never mutated: the first run leaves every pre-existing Schedule row in
place (append-only), and the second run leaves the schedule table
exactly as the first run left it. -/
theorem C8_ingestion_idempotent (now : Nat) (env : EnrichEnv) (cid : Nat) (db : DB) (sec : MovieSection) :
    (processSection now env cid (processSection now env cid db sec) sec).movies.length
      = (processSection now env cid db sec).movies.length ∧
    (processSection now env cid (processSection now env cid db sec) sec).schedules
      = (processSection now env cid db sec).schedules ∧
    ∃ tl, (processSection now env cid db sec).schedules = db.schedules ++ tl := by
  by_cases ht : goTrim sec.titleRaw = ""
  · have hid : ∀ d : DB, processSection now env cid d sec = d := by
      intro d
      simp only [processSection, if_pos ht]
    simp only [hid]
    exact ⟨trivial, trivial, [], by simp⟩
  · obtain ⟨J, z, h1s, h1f, h1zid, _, _⟩ := processSection_run now env cid db sec ht
    obtain ⟨J2, z2, h2s, h2f, h2zid, h2J, h2len⟩ :=
      processSection_run now env cid (processSection now env cid db sec) sec ht
    refine ⟨h2len z h1f, ?_, ?_⟩
    · rw [h2s, h2J z h1f, h1zid, h1s]
      exact insertAll_idem _ _
    · rw [h1s]
      exact insertAll_append _ _
